import Mathlib

/-!
Verification of the sequence-CRDT core of a collaborative text editor.

The program under study is the `DocumentCRDT` class: a position-allocation
scheme (`generatePositionBetween` with helpers `generatePositionBefore` and
`generatePositionAfter`), a total-order comparator on positions
(`comparePositions`), a character store with `insert`, `delete`,
`updateMetadata`, `getText`, `toJSON` and `fromJSON`, and a `merge` operation
joining two stores.

Modelling conventions:
* JavaScript numbers holding digits, clocks and comparator results are
  modelled as `Int` (all arithmetic in the program stays integral).
* The JavaScript `Map<string, Character>` is modelled as an association list
  `List (String × Character)` in insertion order: `Map.get` returns the entry
  of a key, `Map.set` overwrites in place or appends, iteration follows list
  order. Key uniqueness (automatic for a `Map`) is the invariant `keysNodup`.
* `String.prototype.localeCompare` is modelled as code-point lexicographic
  comparison of the character lists (its behaviour on the ASCII site
  identifiers the program uses).
* `uuidv4()` is nondeterministic fresh-name generation; `insert` therefore
  takes the generated identifier as an explicit argument.
* `Array.prototype.sort` is modelled by a deterministic (insertion) sort with
  the same comparator; on comparator ties the JavaScript order is
  implementation defined, and no theorem below depends on the tie order.
-/

namespace DocumentCRDT

/-- `Position` of the source: digit sequence, allocating site, logical clock. -/
structure Position where
  index : List Int
  site : String
  clock : Int
deriving DecidableEq

/-- `CharacterMetadata` of the source. -/
structure CharacterMetadata where
  bold : Bool
  italic : Bool
  deleted : Bool
deriving DecidableEq

/-- `Character` of the source. -/
structure Character where
  id : String
  value : String
  position : Position
  metadata : CharacterMetadata
deriving DecidableEq

/-- `Partial<CharacterMetadata>` of the source: each field optionally present. -/
structure PartialCharacterMetadata where
  bold : Option Bool
  italic : Option Bool
  deleted : Option Bool
deriving DecidableEq

/-- The mutable state of a `DocumentCRDT` instance: the character map together
with the per-instance `siteId` and `clock` fields. -/
structure DocState where
  characters : List (String × Character)
  siteId : String
  clock : Int
deriving DecidableEq

/-- `this.BASE = 32`. -/
def BASE : Int := 32

/-- `this.BOUNDARY = 10`. -/
def BOUNDARY : Int := 10

/-! ## The comparator -/

/-- The digit part of `comparePositions`: the loop over the shared length
returns the first differing digit difference; if one sequence is exhausted the
remaining length difference is returned (equal to the difference of the full
lengths, since both sides consumed the same number of digits). -/
def compareIndex : List Int → List Int → Int
  | a :: as, b :: bs => if a = b then compareIndex as bs else a - b
  | [], bs => 0 - (bs.length : Int)
  | a :: as, [] => ((a :: as).length : Int) - 0

/-- `pos1.site.localeCompare(pos2.site)` on character lists: code-point
lexicographic comparison, returning the sign the program relies on. -/
def charListLt : List Char → List Char → Bool
  | [], [] => false
  | [], _ :: _ => true
  | _ :: _, [] => false
  | c :: cs, d :: ds => if c = d then charListLt cs ds else decide (c < d)

/-- Sign of `localeCompare` on the two site strings. -/
def siteCompare (s1 s2 : String) : Int :=
  if charListLt s1.data s2.data then -1
  else if charListLt s2.data s1.data then 1
  else 0

/-- `comparePositions`: digits over the shared length, then length, then site
(`localeCompare`), then clock. -/
def comparePositions (pos1 pos2 : Position) : Int :=
  if compareIndex pos1.index pos2.index ≠ 0 then compareIndex pos1.index pos2.index
  else if pos1.site ≠ pos2.site then siteCompare pos1.site pos2.site
  else pos1.clock - pos2.clock

/-! ## Basic facts about `compareIndex` -/

theorem compareIndex_self (as : List Int) : compareIndex as as = 0 := by
  induction as with
  | nil => simp [compareIndex]
  | cons a as ih => simp [compareIndex, ih]

theorem compareIndex_eq_zero_iff (as bs : List Int) :
    compareIndex as bs = 0 ↔ as = bs := by
  induction as generalizing bs with
  | nil =>
    cases bs with
    | nil => simp [compareIndex]
    | cons b bs => simp [compareIndex]; omega
  | cons a as ih =>
    cases bs with
    | nil =>
      simp [compareIndex]
      omega
    | cons b bs =>
      by_cases hab : a = b
      · subst hab
        simp [compareIndex, ih]
      · simp [compareIndex, hab]
        omega

theorem compareIndex_swap (as bs : List Int) :
    compareIndex as bs = -compareIndex bs as := by
  induction as generalizing bs with
  | nil =>
    cases bs with
    | nil => simp [compareIndex]
    | cons b bs => simp [compareIndex]
  | cons a as ih =>
    cases bs with
    | nil => simp [compareIndex]
    | cons b bs =>
      by_cases hab : a = b
      · subst hab
        simp [compareIndex, ih]
      · have hba : b ≠ a := fun h => hab h.symm
        simp [compareIndex, hab, hba]

theorem compareIndex_trans {as bs cs : List Int}
    (h1 : compareIndex as bs < 0) (h2 : compareIndex bs cs < 0) :
    compareIndex as cs < 0 := by
  induction as generalizing bs cs with
  | nil =>
    cases bs with
    | nil => simp [compareIndex] at h1
    | cons b bs =>
      cases cs with
      | nil => simp [compareIndex] at h2; omega
      | cons c cs => simp [compareIndex]; omega
  | cons a as ih =>
    cases bs with
    | nil => simp [compareIndex] at h1; omega
    | cons b bs =>
      cases cs with
      | nil => simp [compareIndex] at h2; omega
      | cons c cs =>
        by_cases hab : a = b
        · subst hab
          by_cases hbc : a = c
          · subst hbc
            simp [compareIndex] at h1 h2 ⊢
            exact ih h1 h2
          · simp [compareIndex, hbc] at h2 ⊢
            simpa [compareIndex, hbc] using h2
        · by_cases hbc : b = c
          · subst hbc
            simp [compareIndex, hab] at h1 ⊢
            exact h1
          · simp [compareIndex, hab] at h1
            simp [compareIndex, hbc] at h2
            have hac : a ≠ c := by omega
            simp [compareIndex, hac]
            omega

/-! ## Basic facts about `charListLt` -/

theorem charListLt_self (cs : List Char) : charListLt cs cs = false := by
  induction cs with
  | nil => simp [charListLt]
  | cons c cs ih => simp [charListLt, ih]

theorem charListLt_asymm {cs ds : List Char}
    (h1 : charListLt cs ds = true) (h2 : charListLt ds cs = true) : False := by
  induction cs generalizing ds with
  | nil => cases ds <;> simp [charListLt] at h1 h2
  | cons c cs ih =>
    cases ds with
    | nil => simp [charListLt] at h1
    | cons d ds =>
      by_cases hcd : c = d
      · subst hcd
        simp [charListLt] at h1 h2
        exact ih h1 h2
      · have hdc : d ≠ c := fun h => hcd h.symm
        simp [charListLt, hcd, hdc] at h1 h2
        exact absurd h2 (not_lt_of_lt h1)

theorem charListLt_trans {cs ds es : List Char}
    (h1 : charListLt cs ds = true) (h2 : charListLt ds es = true) :
    charListLt cs es = true := by
  induction cs generalizing ds es with
  | nil =>
    cases ds with
    | nil => simp [charListLt] at h1
    | cons d ds =>
      cases es with
      | nil => simp [charListLt] at h2
      | cons e es => simp [charListLt]
  | cons c cs ih =>
    cases ds with
    | nil => simp [charListLt] at h1
    | cons d ds =>
      cases es with
      | nil => simp [charListLt] at h2
      | cons e es =>
        by_cases hcd : c = d
        · subst hcd
          by_cases hce : c = e
          · subst hce
            simp [charListLt] at h1 h2 ⊢
            exact ih h1 h2
          · simp [charListLt, hce] at h2 ⊢
            exact h2
        · by_cases hde : d = e
          · subst hde
            simp [charListLt, hcd] at h1 ⊢
            exact h1
          · simp [charListLt, hcd] at h1
            simp [charListLt, hde] at h2
            have hce : c ≠ e := ne_of_lt (lt_trans h1 h2)
            simp [charListLt, hce]
            exact lt_trans h1 h2

theorem charListLt_total {cs ds : List Char} (h : cs ≠ ds) :
    charListLt cs ds = true ∨ charListLt ds cs = true := by
  induction cs generalizing ds with
  | nil =>
    cases ds with
    | nil => exact absurd rfl h
    | cons d ds => left; simp [charListLt]
  | cons c cs ih =>
    cases ds with
    | nil => right; simp [charListLt]
    | cons d ds =>
      by_cases hcd : c = d
      · subst hcd
        have hne : cs ≠ ds := by
          intro hh
          exact h (by rw [hh])
        rcases ih hne with h1 | h1
        · left; simpa [charListLt] using h1
        · right; simpa [charListLt] using h1
      · have hdc : d ≠ c := fun hh => hcd hh.symm
        rcases lt_or_gt_of_ne hcd with hlt | hlt
        · left; simp [charListLt, hcd]; exact hlt
        · right; simp [charListLt, hdc]; exact hlt

theorem string_ne_iff_data_ne {s t : String} : s ≠ t ↔ s.data ≠ t.data := by
  constructor
  · intro h hdata
    cases s; cases t
    simp_all
  · intro h hdata
    exact h (by rw [hdata])

/-! ## Characterizations of the comparator -/

theorem position_ext {p q : Position} (h1 : p.index = q.index)
    (h2 : p.site = q.site) (h3 : p.clock = q.clock) : p = q := by
  cases p
  cases q
  simp_all

/-- `comparePositions` is negative exactly on the lexicographic chain
digits, then site, then clock. -/
theorem comparePositions_lt_iff (p q : Position) :
    comparePositions p q < 0 ↔
      compareIndex p.index q.index < 0 ∨
      (p.index = q.index ∧
        (charListLt p.site.data q.site.data = true ∨
          (p.site = q.site ∧ p.clock < q.clock))) := by
  unfold comparePositions
  split_ifs with h1 h2
  · constructor
    · intro h
      exact Or.inl h
    · rintro (h | ⟨hidx, _⟩)
      · exact h
      · exact absurd ((compareIndex_eq_zero_iff _ _).mpr hidx) h1
  · have hci : compareIndex p.index q.index = 0 := not_not.mp h1
    have hidx : p.index = q.index := (compareIndex_eq_zero_iff _ _).mp hci
    unfold siteCompare
    split_ifs with h12 h21
    · exact iff_of_true (by norm_num) (Or.inr ⟨hidx, Or.inl h12⟩)
    · refine iff_of_false (by norm_num) ?_
      rintro (h | ⟨_, hlt | ⟨hse, _⟩⟩)
      · omega
      · exact h12 hlt
      · exact h2 hse
    · refine iff_of_false (by norm_num) ?_
      rintro (h | ⟨_, hlt | ⟨hse, _⟩⟩)
      · omega
      · exact h12 hlt
      · exact h2 hse
  · have hci : compareIndex p.index q.index = 0 := not_not.mp h1
    have hidx : p.index = q.index := (compareIndex_eq_zero_iff _ _).mp hci
    have hse : p.site = q.site := not_not.mp h2
    constructor
    · intro h
      exact Or.inr ⟨hidx, Or.inr ⟨hse, by omega⟩⟩
    · rintro (h | ⟨_, hlt | ⟨_, hck⟩⟩)
      · omega
      · rw [hse, charListLt_self] at hlt
        exact absurd hlt (by simp)
      · omega

theorem comparePositions_eq_zero_iff (p q : Position) :
    comparePositions p q = 0 ↔ p = q := by
  unfold comparePositions
  split_ifs with h1 h2
  · refine iff_of_false h1 ?_
    intro hh
    subst hh
    exact h1 (compareIndex_self _)
  · have hne : p ≠ q := by
      intro hh
      subst hh
      exact h2 rfl
    refine iff_of_false ?_ hne
    unfold siteCompare
    have hdata : p.site.data ≠ q.site.data := string_ne_iff_data_ne.mp h2
    rcases charListLt_total hdata with h12 | h21
    · rw [if_pos h12]
      norm_num
    · have h12f : ¬ charListLt p.site.data q.site.data = true :=
        fun h => charListLt_asymm h h21
      rw [if_neg h12f, if_pos h21]
      norm_num
  · have hci : compareIndex p.index q.index = 0 := not_not.mp h1
    have hidx : p.index = q.index := (compareIndex_eq_zero_iff _ _).mp hci
    have hse : p.site = q.site := not_not.mp h2
    constructor
    · intro h
      exact position_ext hidx hse (by omega)
    · intro h
      subst h
      omega

theorem comparePositions_swap (p q : Position) :
    comparePositions p q = -comparePositions q p := by
  unfold comparePositions
  by_cases hci : compareIndex p.index q.index = 0
  · have hidx : p.index = q.index := (compareIndex_eq_zero_iff _ _).mp hci
    have hci' : compareIndex q.index p.index = 0 :=
      (compareIndex_eq_zero_iff _ _).mpr hidx.symm
    rw [if_neg (not_not_intro hci), if_neg (not_not_intro hci')]
    by_cases hse : p.site = q.site
    · rw [if_neg (not_not_intro hse), if_neg (not_not_intro hse.symm)]
      omega
    · have hse' : q.site ≠ p.site := fun h => hse h.symm
      rw [if_pos hse, if_pos hse']
      unfold siteCompare
      rcases charListLt_total (string_ne_iff_data_ne.mp hse) with h12 | h21
      · have h21f : ¬ charListLt q.site.data p.site.data = true :=
          fun h => charListLt_asymm h12 h
        rw [if_pos h12, if_neg h21f, if_pos h12]
      · have h12f : ¬ charListLt p.site.data q.site.data = true :=
          fun h => charListLt_asymm h h21
        rw [if_neg h12f, if_pos h21, if_pos h21]
        norm_num
  · have hci' : compareIndex q.index p.index ≠ 0 := by
      rw [compareIndex_swap]
      omega
    rw [if_pos (by exact hci), if_pos (by exact hci'), compareIndex_swap]

theorem comparePositions_trans {p q r : Position}
    (h1 : comparePositions p q < 0) (h2 : comparePositions q r < 0) :
    comparePositions p r < 0 := by
  rw [comparePositions_lt_iff] at h1 h2 ⊢
  rcases h1 with h1 | ⟨hidx1, hs1⟩
  · rcases h2 with h2 | ⟨hidx2, _⟩
    · exact Or.inl (compareIndex_trans h1 h2)
    · left; rw [← hidx2]; exact h1
  · rcases h2 with h2 | ⟨hidx2, hs2⟩
    · left; rw [hidx1]; exact h2
    · right
      refine ⟨hidx1.trans hidx2, ?_⟩
      rcases hs1 with hlt1 | ⟨hse1, hck1⟩
      · rcases hs2 with hlt2 | ⟨hse2, _⟩
        · exact Or.inl (charListLt_trans hlt1 hlt2)
        · left; rw [← hse2]; exact hlt1
      · rcases hs2 with hlt2 | ⟨hse2, hck2⟩
        · left; rw [hse1]; exact hlt2
        · exact Or.inr ⟨hse1.trans hse2, lt_trans hck1 hck2⟩

/-! ## The four-step order written from the specification -/

/-- Lexicographic interpretation of the digit part of the comparator: first
differing digit over the shared length decides, a strict prefix sorts before
the longer sequence. This is exactly `List.Lex` with the strict order on
digits. -/
theorem compareIndex_lt_iff_lex (as bs : List Int) :
    compareIndex as bs < 0 ↔ List.Lex (fun a b : Int => a < b) as bs := by
  induction as generalizing bs with
  | nil =>
    cases bs with
    | nil =>
      exact iff_of_false (by decide) (List.Lex.not_nil_right _ _)
    | cons b bs =>
      refine iff_of_true ?_ List.Lex.nil
      simp only [compareIndex, List.length_cons]
      omega
  | cons a as ih =>
    cases bs with
    | nil =>
      refine iff_of_false ?_ (List.Lex.not_nil_right _ _)
      simp only [compareIndex, List.length_cons]
      omega
    | cons b bs =>
      by_cases hab : a = b
      · subst hab
        rw [List.Lex.cons_iff]
        simpa [compareIndex] using ih bs
      · simp only [compareIndex, if_neg hab]
        constructor
        · intro h
          exact List.Lex.rel (show a < b by omega)
        · intro h
          cases h with
          | rel hr =>
            have hr' : a < b := hr
            omega
          | cons _ => exact absurd rfl hab

/-- Same for the site comparison: `charListLt` is code-point lexicographic
comparison of strings. -/
theorem charListLt_iff_lex (cs ds : List Char) :
    charListLt cs ds = true ↔ List.Lex (fun c d : Char => c < d) cs ds := by
  induction cs generalizing ds with
  | nil =>
    cases ds with
    | nil =>
      exact iff_of_false (by decide) (List.Lex.not_nil_right _ _)
    | cons d ds =>
      exact iff_of_true (by simp [charListLt]) List.Lex.nil
  | cons c cs ih =>
    cases ds with
    | nil =>
      exact iff_of_false (by simp [charListLt]) (List.Lex.not_nil_right _ _)
    | cons d ds =>
      by_cases hcd : c = d
      · subst hcd
        rw [List.Lex.cons_iff]
        simpa [charListLt] using ih ds
      · simp only [charListLt, if_neg hcd, decide_eq_true_eq]
        constructor
        · intro h
          exact List.Lex.rel h
        · intro h
          cases h with
          | rel hr => exact hr
          | cons _ => exact absurd rfl hcd

/-- The four-step order as the specification words it: digit sequences
lexicographically (first differing digit over the shared length decides, a
strict prefix sorts first), then site identifiers lexically, then clock values
numerically. Written from the specification to be compared with the
source-derived `comparePositions`. -/
def specOrderLt (p q : Position) : Prop :=
  List.Lex (fun a b : Int => a < b) p.index q.index ∨
  (p.index = q.index ∧
    (List.Lex (fun c d : Char => c < d) p.site.data q.site.data ∨
      (p.site = q.site ∧ p.clock < q.clock)))

/-- Claim C5: `comparePositions` implements the specified four-step order
(digits over the shared length with the first differing digit deciding, a
strict prefix before the longer sequence, then site identifiers lexically,
then clocks numerically), and the induced relation is a strict total order:
irreflexive, antisymmetric (asymmetric), transitive, and total. -/
theorem c5_comparator_strict_total_order :
    (∀ p q : Position, comparePositions p q < 0 ↔ specOrderLt p q) ∧
    (∀ p : Position, ¬ comparePositions p p < 0) ∧
    (∀ p q : Position, comparePositions p q < 0 → ¬ comparePositions q p < 0) ∧
    (∀ p q r : Position,
      comparePositions p q < 0 → comparePositions q r < 0 →
        comparePositions p r < 0) ∧
    (∀ p q : Position, p = q ∨ comparePositions p q < 0 ∨ comparePositions q p < 0) := by
  refine ⟨?_, ?_, ?_, ?_, ?_⟩
  · intro p q
    rw [comparePositions_lt_iff]
    unfold specOrderLt
    rw [compareIndex_lt_iff_lex, charListLt_iff_lex]
  · intro p
    have h : comparePositions p p = 0 := (comparePositions_eq_zero_iff p p).mpr rfl
    omega
  · intro p q h1
    rw [comparePositions_swap]
    omega
  · intro p q r h1 h2
    exact comparePositions_trans h1 h2
  · intro p q
    by_cases heq : p = q
    · exact Or.inl heq
    · right
      have h0 : comparePositions p q ≠ 0 := by
        intro hh
        exact heq ((comparePositions_eq_zero_iff p q).mp hh)
      have hswap := comparePositions_swap p q
      omega

/-! ## The position allocator -/

/-- `generatePositionBefore`: replace the index by its decremented leading
digit, subtracting 1 when the digit is at most `BOUNDARY` and `BOUNDARY`
otherwise. On an empty index the JavaScript original reads `index[0]` as
`undefined` and produces `NaN`; the model reads `headI` (default 0), and every
theorem about this function assumes a non-empty index. -/
def generatePositionBefore (index : List Int) : List Int :=
  if index.headI ≤ BOUNDARY then [index.headI - 1] else [index.headI - BOUNDARY]

/-- `generatePositionAfter`: append a `BASE` sentinel digit. -/
def generatePositionAfter (index : List Int) : List Int :=
  index ++ [BASE]

/-- The digit walk of `generatePositionBetween` once `next` is exhausted:
`prevDigit` is `prev`'s next digit (0 when `prev` too is exhausted),
`nextDigit` is `BASE`; a gap greater than 1 ends with the midpoint digit,
otherwise the walk keeps `prev`'s digit and recurses. -/
def genIndexAbove : List Int → List Int
  | [] => [0 + (BASE - 0) / 2]
  | a :: p' => if BASE - a > 1 then [a + (BASE - a) / 2] else a :: genIndexAbove p'

/-- The digit walk of `generatePositionBetween` for two non-null positions.
The source pushes the shared head digits in a loop, then reads
`prevDigit` (`prev`'s digit, 0 once exhausted) and `nextDigit` (`next`'s
digit, `BASE` once exhausted): a gap greater than 1 ends the walk with the
midpoint digit appended to the head, otherwise `prevDigit` is pushed and the
walk recurses on the remaining suffixes. The accumulated head is represented
here by returning the full digit list; the shared-head loop coincides with
the gap-0 push-and-recurse step. -/
def genIndexBetween : List Int → List Int → List Int
  | p, [] => genIndexAbove p
  | [], b :: q' => if b - 0 > 1 then [0 + (b - 0) / 2] else 0 :: genIndexBetween [] q'
  | a :: p', b :: q' =>
      if b - a > 1 then [a + (b - a) / 2] else a :: genIndexBetween p' q'

/-- `generatePositionBetween` dispatches on null-ness of its two arguments,
mints the digit list, and stamps the instance's site id and a freshly
incremented clock (`incrementClock` runs exactly once per returned
position). -/
def generatePositionBetween (st : DocState) (prev next : Option Position) :
    Position × DocState :=
  match prev, next with
  | none, none =>
      (⟨[BASE], st.siteId, st.clock + 1⟩, {st with clock := st.clock + 1})
  | none, some n =>
      (⟨generatePositionBefore n.index, st.siteId, st.clock + 1⟩,
        {st with clock := st.clock + 1})
  | some p, none =>
      (⟨generatePositionAfter p.index, st.siteId, st.clock + 1⟩,
        {st with clock := st.clock + 1})
  | some p, some n =>
      (⟨genIndexBetween p.index n.index, st.siteId, st.clock + 1⟩,
        {st with clock := st.clock + 1})

/-- The digit-level interval condition under which the allocator is correct
on the right: reading `p` padded with zeros against `q`, the first
disagreement happens strictly inside `q` and goes upward. It holds in
particular when `p` and `q` first differ at a shared index with `p`'s digit
smaller, or when `p` is a strict prefix of `q` whose remainder starts (after
zeros) with a positive digit; it fails when `q` is exhausted first, e.g. for
equal digit sequences. -/
def digitsBelow : List Int → List Int → Bool
  | a :: p', b :: q' => if a = b then digitsBelow p' q' else decide (a < b)
  | [], b :: q' => if b = 0 then digitsBelow [] q' else decide (0 < b)
  | _, [] => false

theorem genIndexBetween_nil (p : List Int) : genIndexBetween p [] = genIndexAbove p := by
  cases p <;> rfl

/-- The digit walk always goes strictly above `prev`, and the interval
condition `digitsBelow` always holds between `prev` and the minted digits. -/
theorem genIndexBetween_above_prev (q p : List Int) :
    compareIndex p (genIndexBetween p q) < 0 ∧
      digitsBelow p (genIndexBetween p q) = true := by
  induction q generalizing p with
  | nil =>
    rw [genIndexBetween_nil]
    induction p with
    | nil => decide
    | cons a p' ih =>
      by_cases h : BASE - a > 1
      · have hm : a < a + (BASE - a) / 2 := by
          simp only [BASE] at h ⊢
          omega
        have hne : a ≠ a + (BASE - a) / 2 := ne_of_lt hm
        constructor
        · simp only [genIndexAbove, if_pos h, compareIndex, if_neg hne]
          omega
        · simp only [genIndexAbove, if_pos h, digitsBelow, if_neg hne]
          simpa using hm
      · constructor
        · simp only [genIndexAbove, if_neg h, compareIndex, if_pos rfl]
          exact ih.1
        · simp only [genIndexAbove, if_neg h, digitsBelow, if_pos rfl]
          exact ih.2
  | cons b q' ih =>
    cases p with
    | nil =>
      by_cases hb : b - 0 > 1
      · have hm : 0 < 0 + (b - 0) / 2 := by omega
        constructor
        · simp only [genIndexBetween, if_pos hb, compareIndex, List.length_cons]
          omega
        · have hne : ¬ (0 + (b - 0) / 2 = 0) := by omega
          simp only [genIndexBetween, if_pos hb, digitsBelow, if_neg hne]
          simpa using hm
      · constructor
        · simp only [genIndexBetween, if_neg hb, compareIndex, List.length_cons]
          omega
        · simp only [genIndexBetween, if_neg hb, digitsBelow, if_pos rfl]
          exact (ih []).2
    | cons a p' =>
      by_cases hab : b - a > 1
      · have hm : a < a + (b - a) / 2 := by omega
        have hne : a ≠ a + (b - a) / 2 := ne_of_lt hm
        constructor
        · simp only [genIndexBetween, if_pos hab, compareIndex, if_neg hne]
          omega
        · simp only [genIndexBetween, if_pos hab, digitsBelow, if_neg hne]
          simpa using hm
      · constructor
        · simp only [genIndexBetween, if_neg hab, compareIndex, if_pos rfl]
          exact (ih p').1
        · simp only [genIndexBetween, if_neg hab, digitsBelow, if_pos rfl]
          exact (ih p').2

/-- Under the interval condition the digit walk stays strictly below `next`,
and the interval condition is re-established between the minted digits and
`next`. -/
theorem genIndexBetween_below_next (q p : List Int)
    (h : digitsBelow p q = true) :
    compareIndex (genIndexBetween p q) q < 0 ∧
      digitsBelow (genIndexBetween p q) q = true := by
  induction q generalizing p with
  | nil =>
    exact absurd h (by cases p <;> simp [digitsBelow])
  | cons b q' ih =>
    cases p with
    | nil =>
      by_cases hb0 : b = 0
      · subst hb0
        have h' : digitsBelow [] q' = true := by
          simpa [digitsBelow] using h
        have hgap : ¬ ((0 : Int) - 0 > 1) := by omega
        constructor
        · simp only [genIndexBetween, if_neg hgap, compareIndex, if_pos rfl]
          exact (ih [] h').1
        · simp only [genIndexBetween, if_neg hgap, digitsBelow, if_pos rfl]
          exact (ih [] h').2
      · have hbpos : 0 < b := by
          simpa [digitsBelow, hb0] using h
        by_cases hb : b - 0 > 1
        · have hm : 0 + (b - 0) / 2 < b := by omega
          have hne : ¬ (0 + (b - 0) / 2 = b) := ne_of_lt hm
          constructor
          · simp only [genIndexBetween, if_pos hb, compareIndex, if_neg hne]
            omega
          · simp only [genIndexBetween, if_pos hb, digitsBelow, if_neg hne]
            simpa using hm
        · have hb1 : b = 1 := by omega
          have hne : (0 : Int) ≠ b := by omega
          constructor
          · simp only [genIndexBetween, if_neg hb, compareIndex, if_neg hne]
            omega
          · simp only [genIndexBetween, if_neg hb, digitsBelow, if_neg hne]
            simpa using hbpos
    | cons a p' =>
      by_cases hab : a = b
      · subst hab
        have h' : digitsBelow p' q' = true := by
          simpa [digitsBelow] using h
        have hgap : ¬ (a - a > 1) := by omega
        constructor
        · simp only [genIndexBetween, if_neg hgap, compareIndex, if_pos rfl]
          exact (ih p' h').1
        · simp only [genIndexBetween, if_neg hgap, digitsBelow, if_pos rfl]
          exact (ih p' h').2
      · have hlt : a < b := by
          simpa [digitsBelow, hab] using h
        by_cases hgap : b - a > 1
        · have hm : a + (b - a) / 2 < b := by omega
          have hne : ¬ (a + (b - a) / 2 = b) := ne_of_lt hm
          constructor
          · simp only [genIndexBetween, if_pos hgap, compareIndex, if_neg hne]
            omega
          · simp only [genIndexBetween, if_pos hgap, digitsBelow, if_neg hne]
            simpa using hm
        · constructor
          · simp only [genIndexBetween, if_neg hgap, compareIndex, if_neg hab]
            omega
          · simp only [genIndexBetween, if_neg hgap, digitsBelow, if_neg hab]
            simpa using hlt

theorem comparePositions_of_compareIndex_neg {p q : Position}
    (h : compareIndex p.index q.index < 0) : comparePositions p q < 0 := by
  rw [comparePositions_lt_iff]
  exact Or.inl h

/-- Claim C1 (amended): whenever the digit-level interval condition
`digitsBelow` holds between `p` and `q` (first disagreement of `p`, padded
with zeros, against `q` happens inside `q` and goes upward — in particular
whenever the digit sequences first differ at a shared index with `p`'s digit
smaller, or `p` is a strict prefix of `q` whose remainder starts, after
zeros, with a positive digit), `generatePositionBetween(p, q)` returns `r`
with `p < r < q` under the comparator, and the same interval condition holds
again for the pairs `(p, r)` and `(r, q)`; hence repeated bisection between a
boundary and the freshly minted position succeeds to any depth, in
particular 50, never producing equal positions. Without the condition the
claim fails (see the counterexample with equal digit sequences). -/
theorem c1_density_amended (st : DocState) (p q : Position)
    (h : digitsBelow p.index q.index = true) :
    comparePositions p (generatePositionBetween st (some p) (some q)).1 < 0 ∧
    comparePositions (generatePositionBetween st (some p) (some q)).1 q < 0 ∧
    digitsBelow p.index (generatePositionBetween st (some p) (some q)).1.index = true ∧
    digitsBelow (generatePositionBetween st (some p) (some q)).1.index q.index = true := by
  have hup := genIndexBetween_above_prev q.index p.index
  have hdown := genIndexBetween_below_next q.index p.index h
  exact ⟨comparePositions_of_compareIndex_neg hup.1,
    comparePositions_of_compareIndex_neg hdown.1, hup.2, hdown.2⟩

/-- Claim C1, as stated, is false: the positions `⟨[16], "A", 1⟩` and
`⟨[16], "B", 1⟩` satisfy `p < q` under the comparator (equal digit
sequences, site tie-break), yet the freshly minted position has digit
sequence `[16, 16]`, which compares strictly above `q`, not below. -/
theorem c1_density_counterexample :
    comparePositions ⟨[16], "A", 1⟩ ⟨[16], "B", 1⟩ < 0 ∧
    ¬ comparePositions
        (generatePositionBetween ⟨[], "C", 0⟩
          (some ⟨[16], "A", 1⟩) (some ⟨[16], "B", 1⟩)).1
        ⟨[16], "B", 1⟩ < 0 := by
  decide

/-- Witness for `c1_density_amended` at `p = ⟨[10], "A", 1⟩`,
`q = ⟨[20], "A", 2⟩`. -/
theorem c1_density_witness :
    comparePositions (⟨[10], "A", 1⟩ : Position)
      (generatePositionBetween ⟨[], "S", 0⟩
        (some ⟨[10], "A", 1⟩) (some ⟨[20], "A", 2⟩)).1 < 0 ∧
    comparePositions
      (generatePositionBetween ⟨[], "S", 0⟩
        (some ⟨[10], "A", 1⟩) (some ⟨[20], "A", 2⟩)).1 ⟨[20], "A", 2⟩ < 0 ∧
    digitsBelow [10]
      (generatePositionBetween ⟨[], "S", 0⟩
        (some ⟨[10], "A", 1⟩) (some ⟨[20], "A", 2⟩)).1.index = true ∧
    digitsBelow
      (generatePositionBetween ⟨[], "S", 0⟩
        (some ⟨[10], "A", 1⟩) (some ⟨[20], "A", 2⟩)).1.index [20] = true :=
  c1_density_amended ⟨[], "S", 0⟩ ⟨[10], "A", 1⟩ ⟨[20], "A", 2⟩ (by decide)

/-! ## The character store -/

/-- `Map.get`: the value of the entry holding the key. -/
def mapGet (m : List (String × Character)) (k : String) : Option Character :=
  match m with
  | [] => none
  | (k1, c) :: rest => if k1 = k then some c else mapGet rest k

/-- `Map.set`: overwrite in place when the key is present, append when
absent. -/
def mapSet (m : List (String × Character)) (k : String) (c : Character) :
    List (String × Character) :=
  match m with
  | [] => [(k, c)]
  | (k1, c1) :: rest =>
      if k1 = k then (k1, c) :: rest else (k1, c1) :: mapSet rest k c

/-- In-place mutation of the character found by `Map.get`: rewrite the first
entry holding the key, leave the map unchanged when the key is absent. -/
def mapAdjust (m : List (String × Character)) (k : String)
    (f : Character → Character) : List (String × Character) :=
  match m with
  | [] => []
  | (k1, c) :: rest =>
      if k1 = k then (k1, f c) :: rest else (k1, c) :: mapAdjust rest k f

/-- Key uniqueness: automatic for the JavaScript `Map`, an invariant of the
association-list model. -/
@[reducible] def keysNodup (m : List (String × Character)) : Prop :=
  (m.map Prod.fst).Nodup

/-- `insert(value, prevId, nextId, metadata)` with the `uuidv4()` result
passed explicitly as `newId`. Neighbor ids are resolved with `Map.get`; a
null or absent neighbor id becomes a null boundary for the allocator. The
new character takes each metadata field from the argument when present and
`false` otherwise, is stored under its id, and is returned. -/
def insert (st : DocState) (newId value : String)
    (prevId nextId : Option String) (metadata : PartialCharacterMetadata) :
    DocState × Character :=
  let prev := prevId.bind (fun pid => mapGet st.characters pid)
  let next := nextId.bind (fun nid => mapGet st.characters nid)
  let pos := generatePositionBetween st (prev.map Character.position)
    (next.map Character.position)
  let char : Character :=
    ⟨newId, value, pos.1,
      ⟨metadata.bold.getD false, metadata.italic.getD false,
        metadata.deleted.getD false⟩⟩
  ({pos.2 with characters := mapSet pos.2.characters newId char}, char)

/-- The mutation `delete` applies to the found character:
`char.metadata.deleted = true`. -/
def markDeleted (c : Character) : Character :=
  {c with metadata := {c.metadata with deleted := true}}

/-- `delete(charId)`: set the `deleted` flag of the character found by
`Map.get`; a missing id leaves the store unchanged. -/
def delete (st : DocState) (charId : String) : DocState :=
  {st with characters := mapAdjust st.characters charId markDeleted}

/-- The spread `{...char.metadata, ...metadata}`: each field of the partial
argument overrides the existing one when present. -/
def mergeMetadata (metadata : PartialCharacterMetadata)
    (m : CharacterMetadata) : CharacterMetadata :=
  ⟨metadata.bold.getD m.bold, metadata.italic.getD m.italic,
    metadata.deleted.getD m.deleted⟩

/-- The mutation `updateMetadata` applies to the found character. -/
def applyMetadata (metadata : PartialCharacterMetadata) (c : Character) :
    Character :=
  {c with metadata := mergeMetadata metadata c.metadata}

/-- `updateMetadata(charId, metadata)`: shallow-merge the given fields into
the existing metadata of the character found by `Map.get`; a missing id
leaves the store unchanged. -/
def updateMetadata (st : DocState) (charId : String)
    (metadata : PartialCharacterMetadata) : DocState :=
  {st with characters := mapAdjust st.characters charId (applyMetadata metadata)}

/-- One step of `merge`: adopt an unknown id, replace a known id only when
the incoming position compares strictly greater than the existing one. -/
def mergeChar (acc : List (String × Character)) (e : String × Character) :
    List (String × Character) :=
  match mapGet acc e.1 with
  | none => mapSet acc e.1 e.2
  | some existing =>
      if comparePositions e.2.position existing.position > 0 then
        mapSet acc e.1 e.2
      else acc

/-- `merge(other)`: iterate over `other`'s entries, mutating the receiver's
map entry by entry. -/
def merge (st other : DocState) : DocState :=
  {st with characters := other.characters.foldl mergeChar st.characters}

/-- Insertion into an already comparator-sorted list. -/
def insertSorted (c : Character) : List Character → List Character
  | [] => [c]
  | d :: rest =>
      if comparePositions c.position d.position ≤ 0 then c :: d :: rest
      else d :: insertSorted c rest

/-- Deterministic model of
`.sort((a, b) => comparePositions(a.position, b.position))`: on comparator
ties the JavaScript order is implementation defined, and no theorem below
depends on the tie order. -/
def sortByPosition : List Character → List Character
  | [] => []
  | c :: rest => insertSorted c (sortByPosition rest)

/-- The values of the map in insertion order with tombstones filtered out. -/
def visibleChars (m : List (String × Character)) : List Character :=
  (m.map Prod.snd).filter (fun c => !c.metadata.deleted)

/-- `getText()`: the non-deleted characters sorted by the comparator. -/
def getText (st : DocState) : List Character :=
  sortByPosition (visibleChars st.characters)

/-- `toJSON()`: `JSON.stringify` of the entry list. Encoding followed by
`JSON.parse` is the identity on this finite string/number/boolean data, so
the serialized form is modelled by the entry list itself. -/
def toJSON (st : DocState) : List (String × Character) :=
  st.characters

/-- `new Map(entries)`: repeated `Map.set` over the entries. -/
def mapFromEntries (entries : List (String × Character)) :
    List (String × Character) :=
  entries.foldl (fun acc e => mapSet acc e.1 e.2) []

/-- `fromJSON(json, siteId)`: a fresh instance (clock 0) whose map is built
from the parsed entry list. -/
def fromJSON (entries : List (String × Character)) (siteId : String) :
    DocState :=
  ⟨mapFromEntries entries, siteId, 0⟩

/-! ## Map lemmas -/

theorem mapGet_mapSet_self (m : List (String × Character)) (k : String)
    (c : Character) : mapGet (mapSet m k c) k = some c := by
  induction m with
  | nil => simp [mapSet, mapGet]
  | cons e rest ih =>
    obtain ⟨k1, c1⟩ := e
    by_cases h : k1 = k
    · subst h
      simp [mapSet, mapGet]
    · simp [mapSet, mapGet, h, ih]

theorem mapGet_mapSet_ne (m : List (String × Character)) {k k1 : String}
    (c : Character) (h : k1 ≠ k) : mapGet (mapSet m k c) k1 = mapGet m k1 := by
  have hk : ¬ k = k1 := fun hh => h hh.symm
  induction m with
  | nil => simp [mapSet, mapGet, hk]
  | cons e rest ih =>
    obtain ⟨k2, c2⟩ := e
    by_cases h2 : k2 = k
    · subst h2
      simp [mapSet, mapGet, hk]
    · simp [mapSet, mapGet, h2, ih]

theorem mapAdjust_of_none (m : List (String × Character)) (k : String)
    (f : Character → Character) (h : mapGet m k = none) :
    mapAdjust m k f = m := by
  induction m with
  | nil => rfl
  | cons e rest ih =>
    obtain ⟨k1, c1⟩ := e
    by_cases h1 : k1 = k
    · simp [mapGet, h1] at h
    · simp only [mapGet, if_neg h1] at h
      simp [mapAdjust, h1, ih h]

theorem mapAdjust_mapAdjust (m : List (String × Character)) (k : String)
    (f g : Character → Character) :
    mapAdjust (mapAdjust m k f) k g = mapAdjust m k (fun c => g (f c)) := by
  induction m with
  | nil => rfl
  | cons e rest ih =>
    obtain ⟨k1, c1⟩ := e
    by_cases h1 : k1 = k
    · simp [mapAdjust, h1]
    · simp [mapAdjust, h1, ih]

theorem mapGet_mapAdjust (m : List (String × Character)) (k : String)
    (f : Character → Character) :
    mapGet (mapAdjust m k f) k = (mapGet m k).map f := by
  induction m with
  | nil => rfl
  | cons e rest ih =>
    obtain ⟨k1, c1⟩ := e
    by_cases h1 : k1 = k
    · simp [mapAdjust, mapGet, h1]
    · simp [mapAdjust, mapGet, h1, ih]

theorem mapGet_mapAdjust_ne (m : List (String × Character)) {k k1 : String}
    (f : Character → Character) (h : k1 ≠ k) :
    mapGet (mapAdjust m k f) k1 = mapGet m k1 := by
  have hk : ¬ k = k1 := fun hh => h hh.symm
  induction m with
  | nil => rfl
  | cons e rest ih =>
    obtain ⟨k2, c2⟩ := e
    by_cases h2 : k2 = k
    · subst h2
      simp [mapAdjust, mapGet, hk]
    · simp [mapAdjust, mapGet, h2, ih]

/-! ## Claim C6 -/

/-- Claim C6 (amended): for every non-null `next` with a non-empty digit
sequence, `generatePositionBetween(null, next)` returns a position strictly
less than `next`, whose index is the decremented leading digit of `next`:
decreased by 1 when the leading digit is at most `BOUNDARY` (near the
minimum), and by the larger fixed `BOUNDARY` step (10) otherwise — the
opposite pairing of the one the claim states. -/
theorem c6_before_amended (st : DocState) (next : Position)
    (h : next.index ≠ []) :
    comparePositions (generatePositionBetween st none (some next)).1 next < 0 ∧
    (generatePositionBetween st none (some next)).1.index =
      (if next.index.headI ≤ BOUNDARY then [next.index.headI - 1]
       else [next.index.headI - BOUNDARY]) := by
  cases next with
  | mk idx nsite nclock =>
    cases idx with
    | nil => exact absurd rfl h
    | cons b rest =>
      refine ⟨?_, rfl⟩
      apply comparePositions_of_compareIndex_neg
      show compareIndex (generatePositionBefore (b :: rest)) (b :: rest) < 0
      unfold generatePositionBefore
      simp only [List.headI_cons]
      by_cases hb : b ≤ BOUNDARY
      · rw [if_pos hb]
        have hne : b - 1 ≠ b := by omega
        simp only [compareIndex, if_neg hne]
        omega
      · rw [if_neg hb]
        have hne : b - BOUNDARY ≠ b := by
          simp only [BOUNDARY]
          omega
        simp only [compareIndex, if_neg hne, BOUNDARY]
        omega

/-- Claim C6, as stated, is false at `next = ⟨[5], "A", 1⟩`: the leading
digit 5 is near the minimum (at most `BOUNDARY`), so the claim prescribes
subtracting the larger `BOUNDARY` step, giving index `[5 - 10]`; the code
instead subtracts 1 and returns index `[4]`. -/
theorem c6_before_counterexample :
    (generatePositionBetween ⟨[], "B", 0⟩ none (some ⟨[5], "A", 1⟩)).1.index
      = [4] ∧
    (generatePositionBetween ⟨[], "B", 0⟩ none (some ⟨[5], "A", 1⟩)).1.index
      ≠ [5 - BOUNDARY] := by
  decide

/-- Witness for `c6_before_amended` at `next = ⟨[5], "A", 1⟩`. -/
theorem c6_before_witness :
    comparePositions
      (generatePositionBetween ⟨[], "B", 0⟩ none (some ⟨[5], "A", 1⟩)).1
      ⟨[5], "A", 1⟩ < 0 ∧
    (generatePositionBetween ⟨[], "B", 0⟩ none (some ⟨[5], "A", 1⟩)).1.index =
      (if ([5] : List Int).headI ≤ BOUNDARY then [([5] : List Int).headI - 1]
       else [([5] : List Int).headI - BOUNDARY]) :=
  c6_before_amended ⟨[], "B", 0⟩ ⟨[5], "A", 1⟩ (by decide)

/-! ## Claim C8 -/

/-- Claim C8: `insert` resolves an absent `prevId` or `nextId` as a document
boundary rather than an error, allocates between the resolved neighbor
positions, returns a character carrying the provided fresh id, the given
value and metadata defaulting to false for every field not overridden, and
stores that character in the map under its id. -/
theorem c8_insert (st : DocState) (newId value : String)
    (prevId nextId : Option String) (metadata : PartialCharacterMetadata) :
    ((insert st newId value prevId nextId metadata).2.id = newId ∧
     (insert st newId value prevId nextId metadata).2.value = value ∧
     (insert st newId value prevId nextId metadata).2.metadata =
       ⟨metadata.bold.getD false, metadata.italic.getD false,
        metadata.deleted.getD false⟩ ∧
     (insert st newId value prevId nextId metadata).2.position =
       (generatePositionBetween st
         ((prevId.bind (fun pid => mapGet st.characters pid)).map
           Character.position)
         ((nextId.bind (fun nid => mapGet st.characters nid)).map
           Character.position)).1 ∧
     mapGet (insert st newId value prevId nextId metadata).1.characters newId =
       some (insert st newId value prevId nextId metadata).2) ∧
    (∀ pid, prevId = some pid → mapGet st.characters pid = none →
      insert st newId value prevId nextId metadata =
        insert st newId value none nextId metadata) ∧
    (∀ nid, nextId = some nid → mapGet st.characters nid = none →
      insert st newId value prevId nextId metadata =
        insert st newId value prevId none metadata) := by
  refine ⟨⟨rfl, rfl, rfl, rfl, ?_⟩, ?_, ?_⟩
  · exact mapGet_mapSet_self _ _ _
  · intro pid hp habsent
    subst hp
    unfold insert
    rw [show (some pid).bind (fun pid => mapGet st.characters pid) = none by
      simpa using habsent]
    rfl
  · intro nid hn habsent
    subst hn
    unfold insert
    rw [show (some nid).bind (fun nid => mapGet st.characters nid) = none by
      simpa using habsent]
    rfl

/-- Witness for `c8_insert`: inserting into the empty store with an absent
`prevId` behaves as an insert at the start boundary and stores the new
character. -/
theorem c8_insert_witness :
    (insert ⟨[], "S", 0⟩ "id1" "h" (some "zz") none ⟨none, none, none⟩).2.id
      = "id1" ∧
    mapGet (insert ⟨[], "S", 0⟩ "id1" "h" (some "zz") none
      ⟨none, none, none⟩).1.characters "id1" =
      some (insert ⟨[], "S", 0⟩ "id1" "h" (some "zz") none
        ⟨none, none, none⟩).2 ∧
    insert ⟨[], "S", 0⟩ "id1" "h" (some "zz") none ⟨none, none, none⟩ =
      insert ⟨[], "S", 0⟩ "id1" "h" none none ⟨none, none, none⟩ :=
  ⟨(c8_insert ⟨[], "S", 0⟩ "id1" "h" (some "zz") none ⟨none, none, none⟩).1.1,
   (c8_insert ⟨[], "S", 0⟩ "id1" "h" (some "zz") none ⟨none, none, none⟩).1.2.2.2.2,
   (c8_insert ⟨[], "S", 0⟩ "id1" "h" (some "zz") none ⟨none, none, none⟩).2.1
     "zz" rfl (by decide)⟩

/-! ## Claim C9 -/

/-- Claim C9: `delete` and `updateMetadata` on an id absent from the store
leave the store completely unchanged (silent no-op, not an error), and
`delete` is idempotent: deleting twice equals deleting once. -/
theorem docState_ext {s t : DocState} (h1 : s.characters = t.characters)
    (h2 : s.siteId = t.siteId) (h3 : s.clock = t.clock) : s = t := by
  cases s
  cases t
  simp_all

theorem c9_unknown_noop_delete_idempotent (st : DocState) (cid did : String)
    (metadata : PartialCharacterMetadata) :
    (mapGet st.characters cid = none →
      delete st cid = st ∧ updateMetadata st cid metadata = st) ∧
    delete (delete st did) did = delete st did := by
  constructor
  · intro h
    constructor
    · refine docState_ext ?_ rfl rfl
      exact mapAdjust_of_none _ _ _ h
    · refine docState_ext ?_ rfl rfl
      exact mapAdjust_of_none _ _ _ h
  · refine docState_ext ?_ rfl rfl
    show mapAdjust (mapAdjust st.characters did markDeleted) did markDeleted =
      mapAdjust st.characters did markDeleted
    rw [mapAdjust_mapAdjust]
    congr 1

/-- Witness for `c9_unknown_noop_delete_idempotent` on a one-character store
and the unknown id `"zz"`. -/
theorem c9_unknown_noop_witness :
    delete ⟨[("a", ⟨"a", "x", ⟨[16], "A", 1⟩, ⟨false, false, false⟩⟩)], "A", 1⟩
        "zz" =
      ⟨[("a", ⟨"a", "x", ⟨[16], "A", 1⟩, ⟨false, false, false⟩⟩)], "A", 1⟩ ∧
    updateMetadata
        ⟨[("a", ⟨"a", "x", ⟨[16], "A", 1⟩, ⟨false, false, false⟩⟩)], "A", 1⟩
        "zz" ⟨some true, none, none⟩ =
      ⟨[("a", ⟨"a", "x", ⟨[16], "A", 1⟩, ⟨false, false, false⟩⟩)], "A", 1⟩ ∧
    delete (delete
        ⟨[("a", ⟨"a", "x", ⟨[16], "A", 1⟩, ⟨false, false, false⟩⟩)], "A", 1⟩
        "a") "a" =
      delete
        ⟨[("a", ⟨"a", "x", ⟨[16], "A", 1⟩, ⟨false, false, false⟩⟩)], "A", 1⟩
        "a" :=
  ⟨((c9_unknown_noop_delete_idempotent
      ⟨[("a", ⟨"a", "x", ⟨[16], "A", 1⟩, ⟨false, false, false⟩⟩)], "A", 1⟩
      "zz" "a" ⟨some true, none, none⟩).1 (by decide)).1,
   ((c9_unknown_noop_delete_idempotent
      ⟨[("a", ⟨"a", "x", ⟨[16], "A", 1⟩, ⟨false, false, false⟩⟩)], "A", 1⟩
      "zz" "a" ⟨some true, none, none⟩).1 (by decide)).2,
   (c9_unknown_noop_delete_idempotent
      ⟨[("a", ⟨"a", "x", ⟨[16], "A", 1⟩, ⟨false, false, false⟩⟩)], "A", 1⟩
      "zz" "a" ⟨some true, none, none⟩).2⟩

/-! ## More map lemmas: lookups, membership, removal, permutations -/

theorem mem_of_mapGet {m : List (String × Character)} {k : String}
    {c : Character} (h : mapGet m k = some c) : (k, c) ∈ m := by
  induction m with
  | nil => simp [mapGet] at h
  | cons e rest ih =>
    obtain ⟨k1, c1⟩ := e
    by_cases h1 : k1 = k
    · subst h1
      simp [mapGet] at h
      subst h
      simp
    · simp only [mapGet, if_neg h1] at h
      simp [ih h]

theorem mapGet_eq_none_iff (m : List (String × Character)) (k : String) :
    mapGet m k = none ↔ k ∉ m.map Prod.fst := by
  induction m with
  | nil => simp [mapGet]
  | cons e rest ih =>
    obtain ⟨k1, c1⟩ := e
    by_cases h1 : k1 = k
    · subst h1
      simp [mapGet]
    · simp only [mapGet, if_neg h1, List.map_cons, List.mem_cons]
      rw [ih]
      constructor
      · intro hn hh
        rcases hh with hh | hh
        · exact h1 hh.symm
        · exact hn hh
      · intro hn hh
        exact hn (Or.inr hh)

theorem mapGet_of_mem {m : List (String × Character)} (h : keysNodup m)
    {e : String × Character} (he : e ∈ m) : mapGet m e.1 = some e.2 := by
  induction m with
  | nil => simp at he
  | cons e1 rest ih =>
    obtain ⟨k1, c1⟩ := e1
    rw [keysNodup, List.map_cons, List.nodup_cons] at h
    rcases List.mem_cons.mp he with he1 | he1
    · subst he1
      simp [mapGet]
    · have hne : k1 ≠ e.1 := by
        intro hh
        apply h.1
        rw [hh]
        exact List.mem_map.mpr ⟨e, he1, rfl⟩
      simp only [mapGet, if_neg hne]
      exact ih h.2 he1

/-- Removal of the entry holding a key (used only in proofs, to peel a map
during the permutation argument). -/
def mapRemove (m : List (String × Character)) (k : String) :
    List (String × Character) :=
  match m with
  | [] => []
  | (k1, c) :: rest => if k1 = k then rest else (k1, c) :: mapRemove rest k

theorem perm_cons_mapRemove {m : List (String × Character)} {k : String}
    {c : Character} (h : mapGet m k = some c) :
    m.Perm ((k, c) :: mapRemove m k) := by
  induction m with
  | nil => simp [mapGet] at h
  | cons e rest ih =>
    obtain ⟨k1, c1⟩ := e
    by_cases h1 : k1 = k
    · subst h1
      simp [mapGet] at h
      subst h
      simp [mapRemove]
    · simp only [mapGet, if_neg h1] at h
      simp only [mapRemove, if_neg h1]
      exact ((ih h).cons (k1, c1)).trans (List.Perm.swap _ _ _)

theorem mem_of_mem_mapRemove {m : List (String × Character)} {k : String}
    {e : String × Character} (h : e ∈ mapRemove m k) : e ∈ m := by
  induction m with
  | nil => simp [mapRemove] at h
  | cons e1 rest ih =>
    obtain ⟨k1, c1⟩ := e1
    by_cases h1 : k1 = k
    · simp only [mapRemove, if_pos h1] at h
      exact List.mem_cons_of_mem _ h
    · simp only [mapRemove, if_neg h1] at h
      rcases List.mem_cons.mp h with h2 | h2
      · exact h2 ▸ List.mem_cons_self _ _
      · exact List.mem_cons_of_mem _ (ih h2)

theorem keysNodup_mapRemove {m : List (String × Character)} (k : String)
    (h : keysNodup m) : keysNodup (mapRemove m k) := by
  induction m with
  | nil => exact h
  | cons e rest ih =>
    obtain ⟨k1, c1⟩ := e
    rw [keysNodup, List.map_cons, List.nodup_cons] at h
    by_cases h1 : k1 = k
    · simp only [mapRemove, if_pos h1]
      exact h.2
    · simp only [mapRemove, if_neg h1, keysNodup, List.map_cons, List.nodup_cons]
      refine ⟨?_, ih h.2⟩
      intro hmem
      rcases List.mem_map.mp hmem with ⟨e2, he2, hfst⟩
      apply h.1
      rw [← hfst]
      exact List.mem_map.mpr ⟨e2, mem_of_mem_mapRemove he2, rfl⟩

theorem mapGet_mapRemove_self {m : List (String × Character)} (k : String)
    (h : keysNodup m) : mapGet (mapRemove m k) k = none := by
  induction m with
  | nil => rfl
  | cons e rest ih =>
    obtain ⟨k1, c1⟩ := e
    rw [keysNodup, List.map_cons, List.nodup_cons] at h
    by_cases h1 : k1 = k
    · subst h1
      simp only [mapRemove, if_pos rfl]
      rw [mapGet_eq_none_iff]
      exact h.1
    · simp only [mapRemove, if_neg h1, mapGet, if_neg h1]
      exact ih h.2

theorem mapGet_mapRemove_ne {m : List (String × Character)} {k k1 : String}
    (h : k1 ≠ k) : mapGet (mapRemove m k) k1 = mapGet m k1 := by
  induction m with
  | nil => rfl
  | cons e rest ih =>
    obtain ⟨k2, c2⟩ := e
    by_cases h2 : k2 = k
    · subst h2
      have hne : ¬ k2 = k1 := fun hh => h hh.symm
      simp [mapRemove, mapGet, hne]
    · simp only [mapRemove, if_neg h2, mapGet]
      by_cases h3 : k2 = k1
      · simp [h3]
      · simp [h3, ih]

/-- Two maps with unique keys and identical lookups are permutations of each
other. -/
theorem perm_of_mapGet_eq {m1 m2 : List (String × Character)}
    (h1 : keysNodup m1) (h2 : keysNodup m2)
    (h : ∀ k, mapGet m1 k = mapGet m2 k) : m1.Perm m2 := by
  induction m1 generalizing m2 with
  | nil =>
    cases m2 with
    | nil => exact List.Perm.refl _
    | cons e rest =>
      have hh := h e.1
      obtain ⟨k1, c1⟩ := e
      simp [mapGet] at hh
  | cons e rest ih =>
    obtain ⟨k, c⟩ := e
    have hk : mapGet m2 k = some c := by
      rw [← h k]
      simp [mapGet]
    rw [keysNodup, List.map_cons, List.nodup_cons] at h1
    have hrest : rest.Perm (mapRemove m2 k) := by
      refine ih h1.2 (keysNodup_mapRemove k h2) ?_
      intro k1
      by_cases hk1 : k1 = k
      · subst hk1
        rw [mapGet_mapRemove_self k1 h2, mapGet_eq_none_iff]
        exact h1.1
      · have hne : ¬ k = k1 := fun hh => hk1 hh.symm
        rw [mapGet_mapRemove_ne hk1, ← h k1]
        simp [mapGet, hne]


    exact (hrest.cons (k, c)).trans (perm_cons_mapRemove hk).symm

/-! ## Sorting lemmas -/

theorem comparePositions_le_trans {p q r : Position}
    (h1 : comparePositions p q ≤ 0) (h2 : comparePositions q r ≤ 0) :
    comparePositions p r ≤ 0 := by
  rcases lt_or_eq_of_le h1 with h1l | h1e
  · rcases lt_or_eq_of_le h2 with h2l | h2e
    · exact le_of_lt (comparePositions_trans h1l h2l)
    · have : q = r := (comparePositions_eq_zero_iff q r).mp h2e
      subst this
      exact le_of_lt h1l
  · have : p = q := (comparePositions_eq_zero_iff p q).mp h1e
    subst this
    exact h2

theorem insertSorted_perm (c : Character) (l : List Character) :
    (insertSorted c l).Perm (c :: l) := by
  induction l with
  | nil => exact List.Perm.refl _
  | cons d rest ih =>
    by_cases h : comparePositions c.position d.position ≤ 0
    · simp only [insertSorted, if_pos h]
      exact List.Perm.refl _
    · simp only [insertSorted, if_neg h]
      exact (ih.cons d).trans (List.Perm.swap _ _ _)

theorem sortByPosition_perm (l : List Character) :
    (sortByPosition l).Perm l := by
  induction l with
  | nil => exact List.Perm.refl _
  | cons c rest ih =>
    exact (insertSorted_perm c (sortByPosition rest)).trans (ih.cons c)

theorem insertSorted_sorted (c : Character) {l : List Character}
    (hs : l.Pairwise (fun a b => comparePositions a.position b.position ≤ 0)) :
    (insertSorted c l).Pairwise
      (fun a b => comparePositions a.position b.position ≤ 0) := by
  induction l with
  | nil => simp [insertSorted]
  | cons d rest ih =>
    rw [List.pairwise_cons] at hs
    by_cases h : comparePositions c.position d.position ≤ 0
    · simp only [insertSorted, if_pos h]
      rw [List.pairwise_cons]
      refine ⟨?_, List.pairwise_cons.mpr hs⟩
      intro x hx
      rcases List.mem_cons.mp hx with hx1 | hx1
      · exact hx1 ▸ h
      · exact comparePositions_le_trans h (hs.1 x hx1)
    · simp only [insertSorted, if_neg h]
      rw [List.pairwise_cons]
      refine ⟨?_, ih hs.2⟩
      intro x hx
      have hx' : x ∈ c :: rest := (insertSorted_perm c rest).mem_iff.mp hx
      rcases List.mem_cons.mp hx' with hx1 | hx1
      · subst hx1
        have hswap := comparePositions_swap d.position x.position
        omega
      · exact hs.1 x hx1

theorem sortByPosition_sorted (l : List Character) :
    (sortByPosition l).Pairwise
      (fun a b => comparePositions a.position b.position ≤ 0) := by
  induction l with
  | nil => simp [sortByPosition]
  | cons c rest ih => exact insertSorted_sorted c ih

/-- Sorting two permutation-equal lists of characters with pairwise distinct
positions gives identical results. -/
theorem sortByPosition_eq_of_perm {l1 l2 : List Character}
    (hp : l1.Perm l2)
    (hne : l1.Pairwise (fun a b => a.position ≠ b.position)) :
    sortByPosition l1 = sortByPosition l2 := by
  have hsymm : ∀ {x y : Character}, x.position ≠ y.position →
      y.position ≠ x.position := fun h => h.symm
  have hperm : (sortByPosition l1).Perm (sortByPosition l2) :=
    (sortByPosition_perm l1).trans (hp.trans (sortByPosition_perm l2).symm)
  have hne1 : (sortByPosition l1).Pairwise (fun a b => a.position ≠ b.position) :=
    (((sortByPosition_perm l1)).pairwise_iff hsymm).mpr hne
  have hne2 : (sortByPosition l2).Pairwise (fun a b => a.position ≠ b.position) :=
    (hperm.pairwise_iff hsymm).mp hne1
  have hstrict : ∀ {l : List Character},
      l.Pairwise (fun a b => comparePositions a.position b.position ≤ 0) →
      l.Pairwise (fun a b => a.position ≠ b.position) →
      l.Pairwise (fun a b => comparePositions a.position b.position < 0) := by
    intro l hs hd
    refine (hs.and hd).imp ?_
    intro a b hab
    rcases lt_or_eq_of_le hab.1 with h | h
    · exact h
    · exact absurd ((comparePositions_eq_zero_iff _ _).mp h) hab.2
  haveI : IsAntisymm Character
      (fun a b => comparePositions a.position b.position < 0) := by
    constructor
    intro a b hab hba
    have hswap := comparePositions_swap a.position b.position
    omega
  exact List.eq_of_perm_of_sorted hperm
    (hstrict (sortByPosition_sorted l1) hne1)
    (hstrict (sortByPosition_sorted l2) hne2)

/-- `getText` agrees on two states whose maps have unique keys, identical
lookups, and pairwise distinct positions across distinct entries. -/
theorem getText_congr {A B : DocState}
    (h1 : keysNodup A.characters) (h2 : keysNodup B.characters)
    (hget : ∀ k, mapGet A.characters k = mapGet B.characters k)
    (hne : (A.characters.map Prod.snd).Pairwise
      (fun a b => a.position ≠ b.position)) :
    getText A = getText B := by
  have hperm := perm_of_mapGet_eq h1 h2 hget
  have hvp : (visibleChars A.characters).Perm (visibleChars B.characters) :=
    (hperm.map Prod.snd).filter _
  have hneA : (visibleChars A.characters).Pairwise
      (fun a b => a.position ≠ b.position) :=
    List.Pairwise.sublist (List.filter_sublist _) hne
  exact sortByPosition_eq_of_perm hvp hneA

/-! ## The per-id resolution rule of `merge` -/

/-- The per-id rule `merge` implements: keep the receiver's character unless
the incoming one has strictly greater position. -/
def resolveChar (l r : Character) : Character :=
  if comparePositions r.position l.position > 0 then r else l

/-- The per-id rule lifted to optional lookups. -/
def resolveOpt : Option Character → Option Character → Option Character
  | none, r => r
  | some l, none => some l
  | some l, some r => some (resolveChar l r)

theorem resolveChar_self (c : Character) : resolveChar c c = c := by
  unfold resolveChar
  have h : comparePositions c.position c.position = 0 :=
    (comparePositions_eq_zero_iff _ _).mpr rfl
  rw [if_neg (by omega)]

theorem resolveChar_assoc (a b c : Character) :
    resolveChar (resolveChar a b) c = resolveChar a (resolveChar b c) := by
  unfold resolveChar
  by_cases hba : comparePositions b.position a.position > 0
  · rw [if_pos hba]
    by_cases hcb : comparePositions c.position b.position > 0
    · rw [if_pos hcb]
      have hca : comparePositions c.position a.position > 0 := by
        have h1 : comparePositions a.position b.position < 0 := by
          have := comparePositions_swap a.position b.position
          omega
        have h2 : comparePositions b.position c.position < 0 := by
          have := comparePositions_swap b.position c.position
          omega
        have h3 := comparePositions_trans h1 h2
        have := comparePositions_swap a.position c.position
        omega
      rw [if_pos hca]
    · rw [if_neg hcb, if_pos hba]
  · rw [if_neg hba]
    by_cases hcb : comparePositions c.position b.position > 0
    · rw [if_pos hcb]
    · rw [if_neg hcb, if_neg hba]
      have hca : ¬ comparePositions c.position a.position > 0 := by
        have := comparePositions_le_trans (p := c.position) (q := b.position)
          (r := a.position) (by omega) (by omega)
        omega
      rw [if_neg hca]

theorem resolveOpt_none_right (l : Option Character) :
    resolveOpt l none = l := by
  cases l <;> rfl

theorem resolveOpt_self (l : Option Character) : resolveOpt l l = l := by
  cases l with
  | none => rfl
  | some c => simp [resolveOpt, resolveChar_self]

theorem resolveOpt_assoc (a b c : Option Character) :
    resolveOpt (resolveOpt a b) c = resolveOpt a (resolveOpt b c) := by
  cases a with
  | none => rfl
  | some ca =>
    cases b with
    | none => rfl
    | some cb =>
      cases c with
      | none => rfl
      | some cc => simp [resolveOpt, resolveChar_assoc]

theorem resolveOpt_mem {l r : Option Character} {c : Character}
    (h : resolveOpt l r = some c) : l = some c ∨ r = some c := by
  cases l with
  | none => exact Or.inr h
  | some cl =>
    cases r with
    | none => exact Or.inl h
    | some cr =>
      simp only [resolveOpt, Option.some.injEq] at h
      unfold resolveChar at h
      by_cases hgt : comparePositions cr.position cl.position > 0
      · rw [if_pos hgt] at h
        exact Or.inr (by rw [h])
      · rw [if_neg hgt] at h
        exact Or.inl (by rw [h])

/-! ## `merge` at the level of lookups -/

theorem mapGet_mergeChar_self (acc : List (String × Character))
    (e : String × Character) :
    mapGet (mergeChar acc e) e.1 = resolveOpt (mapGet acc e.1) (some e.2) := by
  unfold mergeChar
  cases h : mapGet acc e.1 with
  | none =>
    simp only [h, resolveOpt]
    exact mapGet_mapSet_self _ _ _
  | some ex =>
    by_cases hgt : comparePositions e.2.position ex.position > 0
    · simp only [h, if_pos hgt, resolveOpt, resolveChar, if_pos hgt]
      exact mapGet_mapSet_self _ _ _
    · simp only [h, if_neg hgt, resolveOpt, resolveChar, if_neg hgt]

theorem mapGet_mergeChar_ne (acc : List (String × Character))
    (e : String × Character) {k : String} (h : k ≠ e.1) :
    mapGet (mergeChar acc e) k = mapGet acc k := by
  unfold mergeChar
  cases hg : mapGet acc e.1 with
  | none => exact mapGet_mapSet_ne _ _ h
  | some ex =>
    by_cases hgt : comparePositions e.2.position ex.position > 0
    · simp only [if_pos hgt]
      exact mapGet_mapSet_ne _ _ h
    · simp only [if_neg hgt]

theorem mapGet_foldl_mergeChar (es acc : List (String × Character))
    (k : String) (hnodup : keysNodup es) :
    mapGet (es.foldl mergeChar acc) k =
      resolveOpt (mapGet acc k) (mapGet es k) := by
  induction es generalizing acc with
  | nil =>
    simp only [List.foldl_nil, mapGet]
    exact (resolveOpt_none_right _).symm
  | cons e rest ih =>
    obtain ⟨k1, c1⟩ := e
    rw [keysNodup, List.map_cons, List.nodup_cons] at hnodup
    rw [List.foldl_cons, ih _ hnodup.2]
    by_cases hk : k = k1
    · subst hk
      have hrest : mapGet rest k = none := by
        rw [mapGet_eq_none_iff]
        exact hnodup.1
      rw [hrest, resolveOpt_none_right]
      have hself := mapGet_mergeChar_self acc (k, c1)
      simp only at hself
      rw [hself]
      simp [mapGet]
    · have hne : ¬ k1 = k := fun hh => hk hh.symm
      rw [mapGet_mergeChar_ne _ _ hk]
      simp [mapGet, hne]

/-! ## `merge` preserves key uniqueness -/

theorem mem_keys_mapSet (m : List (String × Character)) (k k1 : String)
    (c : Character) :
    k1 ∈ (mapSet m k c).map Prod.fst ↔ k1 ∈ m.map Prod.fst ∨ k1 = k := by
  induction m with
  | nil => simp [mapSet]
  | cons e rest ih =>
    obtain ⟨k2, c2⟩ := e
    by_cases h2 : k2 = k
    · subst h2
      simp [mapSet]
      tauto
    · simp only [mapSet, if_neg h2, List.map_cons, List.mem_cons, ih]
      tauto

theorem keysNodup_mapSet (m : List (String × Character)) (k : String)
    (c : Character) (h : keysNodup m) : keysNodup (mapSet m k c) := by
  induction m with
  | nil => simp [mapSet, keysNodup]
  | cons e rest ih =>
    obtain ⟨k1, c1⟩ := e
    rw [keysNodup, List.map_cons, List.nodup_cons] at h
    by_cases h1 : k1 = k
    · subst h1
      have hms : mapSet ((k1, c1) :: rest) k1 c = (k1, c) :: rest := by
        simp [mapSet]
      rw [hms, keysNodup, List.map_cons, List.nodup_cons]
      exact h
    · simp only [mapSet, if_neg h1, keysNodup, List.map_cons, List.nodup_cons]
      refine ⟨?_, ih h.2⟩
      intro hmem
      rcases (mem_keys_mapSet rest k k1 c).mp hmem with hh | hh
      · exact h.1 hh
      · exact h1 hh

theorem keysNodup_mergeChar (acc : List (String × Character))
    (e : String × Character) (h : keysNodup acc) :
    keysNodup (mergeChar acc e) := by
  unfold mergeChar
  cases mapGet acc e.1 with
  | none => exact keysNodup_mapSet _ _ _ h
  | some ex =>
    by_cases hgt : comparePositions e.2.position ex.position > 0
    · simp only [if_pos hgt]
      exact keysNodup_mapSet _ _ _ h
    · simp only [if_neg hgt]
      exact h

theorem keysNodup_foldl_mergeChar (es acc : List (String × Character))
    (h : keysNodup acc) : keysNodup (es.foldl mergeChar acc) := by
  induction es generalizing acc with
  | nil => exact h
  | cons e rest ih =>
    rw [List.foldl_cons]
    exact ih _ (keysNodup_mergeChar _ _ h)

theorem keysNodup_merge (st other : DocState) (h : keysNodup st.characters) :
    keysNodup (merge st other).characters :=
  keysNodup_foldl_mergeChar _ _ h

theorem mapGet_merge (st other : DocState) (k : String)
    (hnodup : keysNodup other.characters) :
    mapGet (merge st other).characters k =
      resolveOpt (mapGet st.characters k) (mapGet other.characters k) :=
  mapGet_foldl_mergeChar _ _ k hnodup

/-- `merge(A, A)` is literally `A` (each entry resolves against itself and
the strict greater-than test fails). -/
theorem merge_self (st : DocState) (h : keysNodup st.characters) :
    merge st st = st := by
  refine docState_ext ?_ rfl rfl
  show st.characters.foldl mergeChar st.characters = st.characters
  have hgen : ∀ es : List (String × Character),
      (∀ e ∈ es, mapGet st.characters e.1 = some e.2) →
      es.foldl mergeChar st.characters = st.characters := by
    intro es
    induction es with
    | nil => intro _; rfl
    | cons e rest ih =>
      intro hmem
      have he : mapGet st.characters e.1 = some e.2 := hmem e (by simp)
      have hstep : mergeChar st.characters e = st.characters := by
        unfold mergeChar
        rw [he]
        have hz : comparePositions e.2.position e.2.position = 0 :=
          (comparePositions_eq_zero_iff _ _).mpr rfl
        simp [hz]
      rw [List.foldl_cons, hstep]
      exact ih (fun e1 he1 => hmem e1 (List.mem_cons_of_mem _ he1))
  exact hgen st.characters (fun e he => mapGet_of_mem h he)

/-! ## Claim C2 -/

/-- Characters present in both maps under the same id are identical. -/
@[reducible] def agreeOnSharedIds (m1 m2 : List (String × Character)) : Prop :=
  ∀ e1 ∈ m1, ∀ e2 ∈ m2, e1.1 = e2.1 → e1.2 = e2.2

/-- Characters drawn from the two maps under distinct ids occupy distinct
positions (the specification's invariant that no two distinct coexisting
characters are ever assigned equal positions). -/
@[reducible] def positionsSeparated (m1 m2 : List (String × Character)) : Prop :=
  ∀ e1 ∈ m1, ∀ e2 ∈ m2, e1.1 ≠ e2.1 → e1.2.position ≠ e2.2.position

theorem positionsSeparated_symm {m1 m2 : List (String × Character)}
    (h : positionsSeparated m1 m2) : positionsSeparated m2 m1 :=
  fun e2 he2 e1 he1 hne => (h e1 he1 e2 he2 (fun hh => hne hh.symm)).symm

theorem agree_mapGet {m1 m2 : List (String × Character)}
    (hag : agreeOnSharedIds m1 m2) {k : String} {c1 c2 : Character}
    (h1 : mapGet m1 k = some c1) (h2 : mapGet m2 k = some c2) : c1 = c2 :=
  hag _ (mem_of_mapGet h1) _ (mem_of_mapGet h2) rfl

theorem posSep_mapGet {m1 m2 : List (String × Character)}
    (hsep : positionsSeparated m1 m2) {k1 k2 : String} {c1 c2 : Character}
    (h1 : mapGet m1 k1 = some c1) (h2 : mapGet m2 k2 = some c2)
    (hne : k1 ≠ k2) : c1.position ≠ c2.position :=
  hsep _ (mem_of_mapGet h1) _ (mem_of_mapGet h2) hne

theorem pairwise_posNe_of_lookup (M : List (String × Character))
    (hM : keysNodup M)
    (hpos : ∀ k1 k2 c1 c2, mapGet M k1 = some c1 → mapGet M k2 = some c2 →
      k1 ≠ k2 → c1.position ≠ c2.position) :
    (M.map Prod.snd).Pairwise (fun a b => a.position ≠ b.position) := by
  rw [List.pairwise_map]
  have hkeys : M.Pairwise (fun e1 e2 => e1.1 ≠ e2.1) := by
    have h : (List.map Prod.fst M).Pairwise (fun a b => a ≠ b) := hM
    rw [List.pairwise_map] at h
    exact h
  exact List.Pairwise.imp_of_mem
    (fun {e1 e2} h1 h2 hne =>
      hpos e1.1 e2.1 e1.2 e2.2 (mapGet_of_mem hM h1) (mapGet_of_mem hM h2) hne)
    hkeys

/-- Claim C2 (amended): evaluated via the visible document, `merge` is
associative, idempotent, and commutative for stores that satisfy the model
invariants the specification itself assumes — unique keys per map, any two
stores agreeing on the content of a shared id, and distinct ids never holding
equal positions. Without the last two conditions the claim fails: two stores
holding the same id at the same position with different metadata merge to
different visible documents in the two directions (see the counterexample). -/
theorem c2_merge_semilattice_amended (A B C : DocState)
    (hA : keysNodup A.characters) (hB : keysNodup B.characters)
    (hC : keysNodup C.characters)
    (gAB : agreeOnSharedIds A.characters B.characters)
    (sAA : positionsSeparated A.characters A.characters)
    (sAB : positionsSeparated A.characters B.characters)
    (sAC : positionsSeparated A.characters C.characters)
    (sBB : positionsSeparated B.characters B.characters)
    (sBC : positionsSeparated B.characters C.characters)
    (sCC : positionsSeparated C.characters C.characters) :
    getText (merge (merge A B) C) = getText (merge A (merge B C)) ∧
    getText (merge A A) = getText A ∧
    getText (merge A B) = getText (merge B A) := by
  have hABn : keysNodup (merge A B).characters := keysNodup_merge _ _ hA
  have hBCn : keysNodup (merge B C).characters := keysNodup_merge _ _ hB
  have hLn : keysNodup (merge (merge A B) C).characters :=
    keysNodup_merge _ _ hABn
  have hRn : keysNodup (merge A (merge B C)).characters :=
    keysNodup_merge _ _ hA
  have hgetL : ∀ k, mapGet (merge (merge A B) C).characters k =
      resolveOpt (resolveOpt (mapGet A.characters k) (mapGet B.characters k))
        (mapGet C.characters k) := by
    intro k
    rw [mapGet_merge _ _ _ hC, mapGet_merge _ _ _ hB]
  have hgetR : ∀ k, mapGet (merge A (merge B C)).characters k =
      resolveOpt (mapGet A.characters k)
        (resolveOpt (mapGet B.characters k) (mapGet C.characters k)) := by
    intro k
    rw [mapGet_merge _ _ _ hBCn, mapGet_merge _ _ _ hC]
  have horigin : ∀ k c, mapGet (merge (merge A B) C).characters k = some c →
      mapGet A.characters k = some c ∨ mapGet B.characters k = some c ∨
        mapGet C.characters k = some c := by
    intro k c h
    rw [hgetL k] at h
    rcases resolveOpt_mem h with h1 | h1
    · rcases resolveOpt_mem h1 with h2 | h2
      · exact Or.inl h2
      · exact Or.inr (Or.inl h2)
    · exact Or.inr (Or.inr h1)
  have hassoc : getText (merge (merge A B) C) = getText (merge A (merge B C)) := by
    refine getText_congr hLn hRn ?_ ?_
    · intro k
      rw [hgetL k, hgetR k, resolveOpt_assoc]
    · refine pairwise_posNe_of_lookup _ hLn ?_
      intro k1 k2 c1 c2 h1 h2 hne
      rcases horigin k1 c1 h1 with o1 | o1 | o1 <;>
        rcases horigin k2 c2 h2 with o2 | o2 | o2
      · exact posSep_mapGet sAA o1 o2 hne
      · exact posSep_mapGet sAB o1 o2 hne
      · exact posSep_mapGet sAC o1 o2 hne
      · exact posSep_mapGet (positionsSeparated_symm sAB) o1 o2 hne
      · exact posSep_mapGet sBB o1 o2 hne
      · exact posSep_mapGet sBC o1 o2 hne
      · exact posSep_mapGet (positionsSeparated_symm sAC) o1 o2 hne
      · exact posSep_mapGet (positionsSeparated_symm sBC) o1 o2 hne
      · exact posSep_mapGet sCC o1 o2 hne
  have hidem : getText (merge A A) = getText A := by
    rw [merge_self A hA]
  have hcomm : getText (merge A B) = getText (merge B A) := by
    have hBAn : keysNodup (merge B A).characters := keysNodup_merge _ _ hB
    refine getText_congr hABn hBAn ?_ ?_
    · intro k
      rw [mapGet_merge _ _ _ hB, mapGet_merge _ _ _ hA]
      cases ha : mapGet A.characters k with
      | none => cases hb : mapGet B.characters k <;> rfl
      | some ca =>
        cases hb : mapGet B.characters k with
        | none => rfl
        | some cb =>
          have hcc : ca = cb := agree_mapGet gAB ha hb
          subst hcc
          rfl
    · have horigin2 : ∀ k c, mapGet (merge A B).characters k = some c →
          mapGet A.characters k = some c ∨ mapGet B.characters k = some c := by
        intro k c h
        rw [mapGet_merge _ _ _ hB] at h
        exact resolveOpt_mem h
      refine pairwise_posNe_of_lookup _ hABn ?_
      intro k1 k2 c1 c2 h1 h2 hne
      rcases horigin2 k1 c1 h1 with o1 | o1 <;>
        rcases horigin2 k2 c2 h2 with o2 | o2
      · exact posSep_mapGet sAA o1 o2 hne
      · exact posSep_mapGet sAB o1 o2 hne
      · exact posSep_mapGet (positionsSeparated_symm sAB) o1 o2 hne
      · exact posSep_mapGet sBB o1 o2 hne
  exact ⟨hassoc, hidem, hcomm⟩

/-- Claim C2, as stated, is false: two singleton stores holding the same id
at the identical position, deleted in one and live in the other, merge to
different visible documents in the two directions (the receiver's copy always
wins a position tie). -/
theorem c2_merge_counterexample :
    getText (merge
        ⟨[("x", ⟨"x", "h", ⟨[16], "A", 1⟩, ⟨false, false, true⟩⟩)], "A", 1⟩
        ⟨[("x", ⟨"x", "h", ⟨[16], "A", 1⟩, ⟨false, false, false⟩⟩)], "B", 1⟩) ≠
    getText (merge
        ⟨[("x", ⟨"x", "h", ⟨[16], "A", 1⟩, ⟨false, false, false⟩⟩)], "B", 1⟩
        ⟨[("x", ⟨"x", "h", ⟨[16], "A", 1⟩, ⟨false, false, true⟩⟩)], "A", 1⟩) := by
  decide

/-- Witness for `c2_merge_semilattice_amended` on three singleton stores with
distinct ids and distinct positions. -/
theorem c2_merge_witness :
    (getText (merge (merge
        ⟨[("a", ⟨"a", "h", ⟨[10], "A", 1⟩, ⟨false, false, false⟩⟩)], "A", 1⟩
        ⟨[("b", ⟨"b", "i", ⟨[16], "B", 1⟩, ⟨false, false, false⟩⟩)], "B", 1⟩)
        ⟨[("c", ⟨"c", "j", ⟨[20], "C", 1⟩, ⟨false, false, true⟩⟩)], "C", 1⟩) =
      getText (merge
        ⟨[("a", ⟨"a", "h", ⟨[10], "A", 1⟩, ⟨false, false, false⟩⟩)], "A", 1⟩
        (merge
        ⟨[("b", ⟨"b", "i", ⟨[16], "B", 1⟩, ⟨false, false, false⟩⟩)], "B", 1⟩
        ⟨[("c", ⟨"c", "j", ⟨[20], "C", 1⟩, ⟨false, false, true⟩⟩)], "C", 1⟩))) ∧
    (getText (merge
        ⟨[("a", ⟨"a", "h", ⟨[10], "A", 1⟩, ⟨false, false, false⟩⟩)], "A", 1⟩
        ⟨[("a", ⟨"a", "h", ⟨[10], "A", 1⟩, ⟨false, false, false⟩⟩)], "A", 1⟩) =
      getText
        ⟨[("a", ⟨"a", "h", ⟨[10], "A", 1⟩, ⟨false, false, false⟩⟩)], "A", 1⟩) ∧
    (getText (merge
        ⟨[("a", ⟨"a", "h", ⟨[10], "A", 1⟩, ⟨false, false, false⟩⟩)], "A", 1⟩
        ⟨[("b", ⟨"b", "i", ⟨[16], "B", 1⟩, ⟨false, false, false⟩⟩)], "B", 1⟩) =
      getText (merge
        ⟨[("b", ⟨"b", "i", ⟨[16], "B", 1⟩, ⟨false, false, false⟩⟩)], "B", 1⟩
        ⟨[("a", ⟨"a", "h", ⟨[10], "A", 1⟩, ⟨false, false, false⟩⟩)], "A", 1⟩)) :=
  c2_merge_semilattice_amended
    ⟨[("a", ⟨"a", "h", ⟨[10], "A", 1⟩, ⟨false, false, false⟩⟩)], "A", 1⟩
    ⟨[("b", ⟨"b", "i", ⟨[16], "B", 1⟩, ⟨false, false, false⟩⟩)], "B", 1⟩
    ⟨[("c", ⟨"c", "j", ⟨[20], "C", 1⟩, ⟨false, false, true⟩⟩)], "C", 1⟩
    (by decide) (by decide) (by decide) (by decide) (by decide) (by decide)
    (by decide) (by decide) (by decide) (by decide)

/-! ## Claim C3 -/

/-- Claim C3: the exclusion half holds — a character whose `deleted` flag is
true never appears in `getText()` — but the survival half is contradicted by
the code at the failing input: replicas share character "x" at the identical
position, one replica holds it deleted, and merging that replica into the
live one keeps the live copy (the strict greater-than test fails on the
position tie), so the deletion does not survive the merge in that
direction. -/
theorem c3_tombstone_exclusion_and_divergence :
    (∀ (st : DocState), ∀ c ∈ getText st, c.metadata.deleted = false) ∧
    mapGet (merge
        ⟨[("x", ⟨"x", "h", ⟨[16], "A", 1⟩, ⟨false, false, false⟩⟩)], "B", 1⟩
        ⟨[("x", ⟨"x", "h", ⟨[16], "A", 1⟩, ⟨false, false, true⟩⟩)], "A", 1⟩
      ).characters "x" =
      some ⟨"x", "h", ⟨[16], "A", 1⟩, ⟨false, false, false⟩⟩ := by
  constructor
  · intro st c hc
    have hmem : c ∈ visibleChars st.characters :=
      (sortByPosition_perm _).mem_iff.mp hc
    have hf := List.of_mem_filter hmem
    simpa using hf
  · decide

/-- Witness for the universal half of `c3_tombstone_exclusion_and_divergence`
at a concrete one-character store. -/
theorem c3_tombstone_witness :
    (⟨"a", "h", ⟨[16], "A", 1⟩, ⟨false, false, false⟩⟩ :
      Character).metadata.deleted = false :=
  c3_tombstone_exclusion_and_divergence.1
    ⟨[("a", ⟨"a", "h", ⟨[16], "A", 1⟩, ⟨false, false, false⟩⟩)], "A", 1⟩
    ⟨"a", "h", ⟨[16], "A", 1⟩, ⟨false, false, false⟩⟩ (by decide)

/-! ## Claim C4 -/

theorem generatePositionBetween_characters (st : DocState)
    (prev next : Option Position) :
    (generatePositionBetween st prev next).2.characters = st.characters := by
  cases prev <;> cases next <;> rfl

theorem insert_characters (st : DocState) (newId value : String)
    (prevId nextId : Option String) (pm : PartialCharacterMetadata) :
    (insert st newId value prevId nextId pm).1.characters =
      mapSet st.characters newId (insert st newId value prevId nextId pm).2 := by
  unfold insert
  dsimp only
  rw [generatePositionBetween_characters]

/-- Claim C4 (amended): once a character's `deleted` flag is true it is never
removed from the store, and it stays deleted under: `insert` with a fresh id,
`delete`, `updateMetadata` whose partial does not set `deleted` to false, and
`merge` with a store whose copy of the id, when its position compares
strictly greater, is itself deleted. The exclusions are forced by the code:
`updateMetadata(id, {deleted: false})` resets the flag (see the
counterexample), and `merge` adopting a strictly-greater-position live copy
replaces the tombstoned character. -/
theorem c4_delete_oneway_amended (st : DocState) (k : String) (c : Character)
    (hget : mapGet st.characters k = some c)
    (hdel : c.metadata.deleted = true) :
    (∀ newId value prevId nextId pm, newId ≠ k →
      mapGet (insert st newId value prevId nextId pm).1.characters k = some c) ∧
    (∀ did, ∃ c1, mapGet (delete st did).characters k = some c1 ∧
      c1.metadata.deleted = true) ∧
    (∀ did pm, pm.deleted ≠ some false →
      ∃ c1, mapGet (updateMetadata st did pm).characters k = some c1 ∧
        c1.metadata.deleted = true) ∧
    (∀ other, keysNodup other.characters →
      (∀ cr, mapGet other.characters k = some cr →
        comparePositions cr.position c.position > 0 →
        cr.metadata.deleted = true) →
      ∃ c1, mapGet (merge st other).characters k = some c1 ∧
        c1.metadata.deleted = true) := by
  refine ⟨?_, ?_, ?_, ?_⟩
  · intro newId value prevId nextId pm hne
    rw [insert_characters]
    rw [mapGet_mapSet_ne _ _ (fun hh => hne hh.symm)]
    exact hget
  · intro did
    by_cases hdk : did = k
    · subst hdk
      refine ⟨markDeleted c, ?_, rfl⟩
      show mapGet (mapAdjust st.characters did markDeleted) did = _
      rw [mapGet_mapAdjust, hget]
      rfl
    · refine ⟨c, ?_, hdel⟩
      show mapGet (mapAdjust st.characters did markDeleted) k = some c
      rw [mapGet_mapAdjust_ne _ _ (fun hh => hdk hh.symm)]
      exact hget
  · intro did pm hpm
    by_cases hdk : did = k
    · subst hdk
      refine ⟨applyMetadata pm c, ?_, ?_⟩
      · show mapGet (mapAdjust st.characters did (applyMetadata pm)) did = _
        rw [mapGet_mapAdjust, hget]
        rfl
      · show pm.deleted.getD c.metadata.deleted = true
        cases hd : pm.deleted with
        | none => simpa using hdel
        | some b =>
          cases b with
          | false => exact absurd hd hpm
          | true => simp
    · refine ⟨c, ?_, hdel⟩
      show mapGet (mapAdjust st.characters did (applyMetadata pm)) k = some c
      rw [mapGet_mapAdjust_ne _ _ (fun hh => hdk hh.symm)]
      exact hget
  · intro other hnod hcond
    rw [mapGet_merge _ _ _ hnod, hget]
    cases ho : mapGet other.characters k with
    | none => exact ⟨c, rfl, hdel⟩
    | some cr =>
      show ∃ c1, some (resolveChar c cr) = some c1 ∧ c1.metadata.deleted = true
      unfold resolveChar
      by_cases hgt : comparePositions cr.position c.position > 0
      · rw [if_pos hgt]
        exact ⟨cr, rfl, hcond cr ho hgt⟩
      · rw [if_neg hgt]
        exact ⟨c, rfl, hdel⟩

/-- Claim C4, as stated, is false: `updateMetadata` with a partial containing
`deleted: false` sets a tombstoned character's flag back to false, because
the shallow merge `{...char.metadata, ...metadata}` lets the argument
override every field. -/
theorem c4_delete_oneway_counterexample :
    mapGet (updateMetadata
        ⟨[("x", ⟨"x", "h", ⟨[16], "A", 1⟩, ⟨false, false, true⟩⟩)], "A", 1⟩
        "x" ⟨none, none, some false⟩).characters "x" =
      some ⟨"x", "h", ⟨[16], "A", 1⟩, ⟨false, false, false⟩⟩ := by
  decide

/-- Witness for `c4_delete_oneway_amended` on a one-character tombstoned
store. -/
theorem c4_delete_oneway_witness :
    mapGet (insert
        ⟨[("x", ⟨"x", "h", ⟨[16], "A", 1⟩, ⟨false, false, true⟩⟩)], "A", 1⟩
        "y" "v" none none ⟨none, none, none⟩).1.characters "x" =
      some ⟨"x", "h", ⟨[16], "A", 1⟩, ⟨false, false, true⟩⟩ ∧
    (∃ c1, mapGet (delete
        ⟨[("x", ⟨"x", "h", ⟨[16], "A", 1⟩, ⟨false, false, true⟩⟩)], "A", 1⟩
        "x").characters "x" = some c1 ∧ c1.metadata.deleted = true) ∧
    (∃ c1, mapGet (updateMetadata
        ⟨[("x", ⟨"x", "h", ⟨[16], "A", 1⟩, ⟨false, false, true⟩⟩)], "A", 1⟩
        "x" ⟨some true, none, none⟩).characters "x" = some c1 ∧
      c1.metadata.deleted = true) ∧
    (∃ c1, mapGet (merge
        ⟨[("x", ⟨"x", "h", ⟨[16], "A", 1⟩, ⟨false, false, true⟩⟩)], "A", 1⟩
        ⟨[], "B", 0⟩).characters "x" = some c1 ∧
      c1.metadata.deleted = true) :=
  ⟨(c4_delete_oneway_amended
      ⟨[("x", ⟨"x", "h", ⟨[16], "A", 1⟩, ⟨false, false, true⟩⟩)], "A", 1⟩
      "x" ⟨"x", "h", ⟨[16], "A", 1⟩, ⟨false, false, true⟩⟩
      (by decide) rfl).1 "y" "v" none none ⟨none, none, none⟩ (by decide),
   (c4_delete_oneway_amended
      ⟨[("x", ⟨"x", "h", ⟨[16], "A", 1⟩, ⟨false, false, true⟩⟩)], "A", 1⟩
      "x" ⟨"x", "h", ⟨[16], "A", 1⟩, ⟨false, false, true⟩⟩
      (by decide) rfl).2.1 "x",
   (c4_delete_oneway_amended
      ⟨[("x", ⟨"x", "h", ⟨[16], "A", 1⟩, ⟨false, false, true⟩⟩)], "A", 1⟩
      "x" ⟨"x", "h", ⟨[16], "A", 1⟩, ⟨false, false, true⟩⟩
      (by decide) rfl).2.2.1 "x" ⟨some true, none, none⟩ (by decide),
   (c4_delete_oneway_amended
      ⟨[("x", ⟨"x", "h", ⟨[16], "A", 1⟩, ⟨false, false, true⟩⟩)], "A", 1⟩
      "x" ⟨"x", "h", ⟨[16], "A", 1⟩, ⟨false, false, true⟩⟩
      (by decide) rfl).2.2.2 ⟨[], "B", 0⟩ (by decide)
      (fun cr h _ => by simp [mapGet] at h)⟩

/-! ## Claim C7 -/

theorem mapSet_eq_append (m : List (String × Character)) (k : String)
    (c : Character) (h : mapGet m k = none) : mapSet m k c = m ++ [(k, c)] := by
  induction m with
  | nil => rfl
  | cons e rest ih =>
    obtain ⟨k1, c1⟩ := e
    by_cases h1 : k1 = k
    · simp [mapGet, h1] at h
    · simp only [mapGet, if_neg h1] at h
      simp [mapSet, h1, ih h]

theorem mapGet_append_right (m l : List (String × Character)) (k : String)
    (h : mapGet m k = none) : mapGet (m ++ l) k = mapGet l k := by
  induction m with
  | nil => rfl
  | cons e rest ih =>
    obtain ⟨k1, c1⟩ := e
    by_cases h1 : k1 = k
    · simp [mapGet, h1] at h
    · simp only [mapGet, if_neg h1] at h
      simp only [List.cons_append, mapGet, if_neg h1]
      exact ih h

theorem foldl_mapSet_disjoint (es : List (String × Character)) :
    ∀ acc, (∀ e ∈ es, mapGet acc e.1 = none) → keysNodup es →
      es.foldl (fun acc e => mapSet acc e.1 e.2) acc = acc ++ es := by
  induction es with
  | nil =>
    intro acc _ _
    simp
  | cons e rest ih =>
    intro acc hdis hnod
    obtain ⟨k, c⟩ := e
    rw [keysNodup, List.map_cons, List.nodup_cons] at hnod
    have hacc : mapGet acc k = none := hdis (k, c) (by simp)
    rw [List.foldl_cons]
    have hset : mapSet acc (k, c).1 (k, c).2 = acc ++ [(k, c)] :=
      mapSet_eq_append _ _ _ hacc
    rw [hset, ih (acc ++ [(k, c)]) ?_ hnod.2]
    · simp
    · intro e1 he1
      rw [mapGet_append_right _ _ _ (hdis e1 (List.mem_cons_of_mem _ he1))]
      have hne : ¬ k = e1.1 := by
        intro hh
        apply hnod.1
        rw [hh]
        exact List.mem_map.mpr ⟨e1, he1, rfl⟩
      simp [mapGet, hne]

theorem mapFromEntries_eq_self (es : List (String × Character))
    (h : keysNodup es) : mapFromEntries es = es := by
  unfold mapFromEntries
  rw [foldl_mapSet_disjoint es [] (fun e _ => rfl) h]
  simp

/-- Claim C7: the serialization round-trip reproduces every (id, Character)
entry exactly — tombstoned entries and all metadata flags included — and
hence `getText` of the reproduced store is identical. -/
theorem c7_roundtrip (st : DocState) (sid : String)
    (h : keysNodup st.characters) :
    (fromJSON (toJSON st) sid).characters = st.characters ∧
    getText (fromJSON (toJSON st) sid) = getText st := by
  have hch : (fromJSON (toJSON st) sid).characters = st.characters :=
    mapFromEntries_eq_self _ h
  refine ⟨hch, ?_⟩
  unfold getText
  rw [hch]

/-- Witness for `c7_roundtrip` on a two-character store containing a
tombstone and formatting flags. -/
theorem c7_roundtrip_witness :
    (fromJSON (toJSON
        ⟨[("a", ⟨"a", "h", ⟨[10], "A", 1⟩, ⟨true, false, true⟩⟩),
          ("b", ⟨"b", "i", ⟨[16], "A", 2⟩, ⟨false, true, false⟩⟩)], "A", 2⟩)
      "N").characters =
      [("a", ⟨"a", "h", ⟨[10], "A", 1⟩, ⟨true, false, true⟩⟩),
       ("b", ⟨"b", "i", ⟨[16], "A", 2⟩, ⟨false, true, false⟩⟩)] ∧
    getText (fromJSON (toJSON
        ⟨[("a", ⟨"a", "h", ⟨[10], "A", 1⟩, ⟨true, false, true⟩⟩),
          ("b", ⟨"b", "i", ⟨[16], "A", 2⟩, ⟨false, true, false⟩⟩)], "A", 2⟩)
      "N") =
      getText
        ⟨[("a", ⟨"a", "h", ⟨[10], "A", 1⟩, ⟨true, false, true⟩⟩),
          ("b", ⟨"b", "i", ⟨[16], "A", 2⟩, ⟨false, true, false⟩⟩)], "A", 2⟩ :=
  c7_roundtrip
    ⟨[("a", ⟨"a", "h", ⟨[10], "A", 1⟩, ⟨true, false, true⟩⟩),
      ("b", ⟨"b", "i", ⟨[16], "A", 2⟩, ⟨false, true, false⟩⟩)], "A", 2⟩
    "N" (by decide)

/-! ## Claim C10 -/

/-- Claim C10: when an id is present in both stores and the two positions
compare equal under `comparePositions` (identical digit sequence, site and
clock), `merge` keeps the receiver's character unchanged and discards the
incoming copy entirely, metadata included; consequently the merged outcome
depends on which store receives the merge, as the final conjunct shows on
two concrete stores whose copies of "x" differ only in metadata. -/
theorem c10_merge_tie_keeps_local (st other : DocState) (k : String)
    (cl cr : Character)
    (hl : mapGet st.characters k = some cl)
    (hr : mapGet other.characters k = some cr)
    (heq : comparePositions cr.position cl.position = 0)
    (hnod : keysNodup other.characters) :
    mapGet (merge st other).characters k = some cl ∧
    mapGet (merge
        ⟨[("x", ⟨"x", "h", ⟨[16], "A", 1⟩, ⟨true, false, false⟩⟩)], "A", 1⟩
        ⟨[("x", ⟨"x", "h", ⟨[16], "A", 1⟩, ⟨false, false, true⟩⟩)], "B", 1⟩
      ).characters "x" ≠
      mapGet (merge
        ⟨[("x", ⟨"x", "h", ⟨[16], "A", 1⟩, ⟨false, false, true⟩⟩)], "B", 1⟩
        ⟨[("x", ⟨"x", "h", ⟨[16], "A", 1⟩, ⟨true, false, false⟩⟩)], "A", 1⟩
      ).characters "x" := by
  constructor
  · rw [mapGet_merge _ _ _ hnod, hl, hr]
    show some (resolveChar cl cr) = some cl
    unfold resolveChar
    rw [if_neg (by omega)]
  · decide

/-- Witness for `c10_merge_tie_keeps_local` on two singleton stores sharing
id "x" at the identical position with diverged metadata. -/
theorem c10_merge_tie_witness :
    mapGet (merge
        ⟨[("x", ⟨"x", "h", ⟨[16], "A", 1⟩, ⟨false, false, true⟩⟩)], "A", 1⟩
        ⟨[("x", ⟨"x", "h", ⟨[16], "A", 1⟩, ⟨false, false, false⟩⟩)], "B", 1⟩
      ).characters "x" =
      some ⟨"x", "h", ⟨[16], "A", 1⟩, ⟨false, false, true⟩⟩ ∧
    mapGet (merge
        ⟨[("x", ⟨"x", "h", ⟨[16], "A", 1⟩, ⟨true, false, false⟩⟩)], "A", 1⟩
        ⟨[("x", ⟨"x", "h", ⟨[16], "A", 1⟩, ⟨false, false, true⟩⟩)], "B", 1⟩
      ).characters "x" ≠
      mapGet (merge
        ⟨[("x", ⟨"x", "h", ⟨[16], "A", 1⟩, ⟨false, false, true⟩⟩)], "B", 1⟩
        ⟨[("x", ⟨"x", "h", ⟨[16], "A", 1⟩, ⟨true, false, false⟩⟩)], "A", 1⟩
      ).characters "x" :=
  c10_merge_tie_keeps_local
    ⟨[("x", ⟨"x", "h", ⟨[16], "A", 1⟩, ⟨false, false, true⟩⟩)], "A", 1⟩
    ⟨[("x", ⟨"x", "h", ⟨[16], "A", 1⟩, ⟨false, false, false⟩⟩)], "B", 1⟩
    "x" ⟨"x", "h", ⟨[16], "A", 1⟩, ⟨false, false, true⟩⟩
    ⟨"x", "h", ⟨[16], "A", 1⟩, ⟨false, false, false⟩⟩
    (by decide) (by decide) (by decide) (by decide)

end DocumentCRDT
